import Mathlib

/-!
Shallow embedding of the enzymemap repository (files enzymemap/enzymemap.py and
enzymemap/helpers_brenda.py) for verification of its specification claims.

Part 1: helpers_brenda.py.
 - extract_reaction: trailing reversibility marker handling and stoichiometric
   coefficient expansion of substrate/product tokens.
 - process_entry: the discard condition for parsed reactions.
 - parse_brenda: duplicate-row removal and the EC 7 filter.

Part 2: enzymemap.py.
 - make_initial: the Cartesian-product construction of candidate reactions and
   the balancing loop with its cache keyed by reaction text.
 - map_group: the single/multi/suggestion mapping stages and the rule-frequency
   quality scoring.

External helpers (helpers_rdkit, helpers_map, helpers_resolve_smiles) are not
part of this repository snapshot; they appear as abstract function parameters,
while all control flow proved about below is translated from the two source
files named above.
-/

namespace EnzymeMap

/-! ### extract_reaction: reversibility marker (helpers_brenda.py lines 140-151)

The source matches the regular expression of word characters between braces,
followed by spaces, anchored at the end of the string.  A word character is a
letter, digit or underscore. -/

/-- Word character as matched by the regex class backslash-w (ASCII reading). -/
def isWordChar (c : Char) : Bool := c.isAlphanum || c == '_'

/-- Python str.strip(): remove leading and trailing whitespace. -/
def pyStrip (l : List Char) : List Char :=
  ((l.dropWhile Char.isWhitespace).reverse.dropWhile Char.isWhitespace).reverse

/-- The unique match, if any, of the anchored search for an opening brace,
word characters, a closing brace and trailing spaces at the end of the string
(REVERSIBLE_RE in the source).  Scanning from the end: trailing spaces, then a
closing brace, then a maximal run of word characters, then an opening brace.
Returns the full matched text, trailing spaces included. -/
def findRevMarker (s : List Char) : Option (List Char) :=
  let rs := s.reverse
  let sp := rs.takeWhile (fun c => c == ' ')
  match rs.dropWhile (fun c => c == ' ') with
  | '}' :: rest =>
    match rest.dropWhile isWordChar with
    | '{' :: _ => some ('{' :: ((rest.takeWhile isWordChar).reverse ++ '}' :: sp))
    | _ => none
  | _ => none

/-- The reversibility tag computed by extract_reaction: when a trailing marker
is present and its matched text is longer than two characters, the tag is the
stripped marker with first and last character removed; otherwise the tag is
the question mark. -/
def extractReversibility (rxn : String) : String :=
  match findRevMarker rxn.data with
  | some marker =>
    if 2 < marker.length then String.mk (((pyStrip marker).drop 1).dropLast)
    else String.mk ['?']
  | none => String.mk ['?']

/-! ### extract_reaction: coefficient expansion (helpers_brenda.py lines 225-245)

Each substrate/product token beginning with digits followed by a space is
replaced by int(digits) copies of the token with the leading digits and the
one following space removed. -/

/-- Value of a decimal digit run, as computed by Python int(). -/
def digitsToNat (ds : List Char) : Nat :=
  ds.foldl (fun n c => 10 * n + (c.toNat - '0'.toNat)) 0

/-- Expansion of one token: if the token starts with one or more digits
followed by a space, emit int(digits) copies of the remainder, else keep the
token as is. -/
def expandToken (x : List Char) : List (List Char) :=
  let ds := x.takeWhile Char.isDigit
  if ds.length ≠ 0 then
    match x.drop ds.length with
    | ' ' :: rest => List.replicate (digitsToNat ds) rest
    | _ => [x]
  else [x]

/-- The loop over all tokens of one side of the equation, appending each
token's expansion (the smi accumulation loop in the source). -/
def expandTokens (xs : List (List Char)) : List (List Char) :=
  xs.flatMap expandToken

/-- Whether a token still begins with an integer coefficient, i.e. with a
digit run followed by a space. -/
def hasLeadingCoeff (x : List Char) : Bool :=
  (x.takeWhile Char.isDigit).length ≠ 0 &&
    match x.drop (x.takeWhile Char.isDigit).length with
    | ' ' :: _ => true
    | _ => false

/-! ### process_entry: the discard condition (helpers_brenda.py lines 428-430
and 453-455)

A parsed reaction is skipped when a question mark occurs among its substrates
or products, or the name more occurs among its substrates. -/

/-- The condition under which process_entry skips a parsed reaction. -/
def discardReaction (subs prods : List String) : Bool :=
  subs.contains (String.mk ['?']) || prods.contains (String.mk ['?']) ||
    subs.contains (String.mk ['m', 'o', 'r', 'e'])

/-! ### parse_brenda: dedup and EC 7 filter (helpers_brenda.py lines 507-509)

The dataframe is cast row-wise to strings, duplicate rows (keeping the first
occurrence) are dropped, and rows whose EC number starts with the character 7
are removed. -/

/-- Duplicate removal keyed by the string representation of a row, keeping the
first occurrence of each distinct representation; seen accumulates the
representations already kept. -/
def dedupByStrAux (toStr : α → String) : List α → List String → List α
  | [], _ => []
  | x :: xs, seen =>
    if toStr x ∈ seen then dedupByStrAux toStr xs seen
    else x :: dedupByStrAux toStr xs (toStr x :: seen)

/-- drop_duplicates on the string-cast rows, keeping first occurrences. -/
def dedupByStr (toStr : α → String) (rows : List α) : List α :=
  dedupByStrAux toStr rows []

/-- Python str.startswith, on the underlying character lists. -/
def pyStartsWith (pre s : String) : Bool := pre.data.isPrefixOf s.data

/-- The final dataframe of parse_brenda: duplicates dropped, then every row
whose EC number starts with the character 7 removed. -/
def parseBrendaFilter (toStr : α → String) (ec : α → String) (rows : List α) : List α :=
  (dedupByStr toStr rows).filter (fun r => !pyStartsWith (String.mk ['7']) (ec r))

/-! ### make_initial: candidate reactions (enzymemap.py lines 41-48)

For each raw reaction, the substrate SMILES combinations and the product
SMILES combinations are each formed by itertools.product over the per-name
variant lists, joined with a dot; the reaction strings are the product of the
two, joined with a reaction arrow; put_h_last (external, abstract here) is
mapped over the result. -/

/-- itertools.product over a list of lists, rightmost factor varying
fastest. -/
def cartProd : List (List α) → List (List α)
  | [] => [[]]
  | l :: ls => l.flatMap (fun a => (cartProd ls).map (fun t => a :: t))

/-- POSSIBLE_RXNS for one raw reaction: the reaction strings built from one
structure variant per substrate and product name, exactly as in the source
loop; c2s is the compound_to_smiles dictionary and putHLast the external
canonicalizer. -/
def possibleRxns (c2s : String → List String) (putHLast : String → String)
    (subs prods : List String) : List String :=
  let reacs := (cartProd (subs.map c2s)).map (fun xs => String.intercalate (String.mk ['.']) xs)
  let ps := (cartProd (prods.map c2s)).map (fun xs => String.intercalate (String.mk ['.']) xs)
  ((cartProd [reacs, ps]).map (fun xs => String.intercalate (String.mk ['>', '>']) xs)).map putHLast

/-! ### make_initial: balancing loop with cache (enzymemap.py lines 54-66)

Rows are processed in order; the cache is keyed by the reaction text RXN_TEXT.
On a cache miss the external correct_reaction (f) is run on the row's
POSSIBLE_RXNS, put_h_last (g) is mapped over the result, and the value is
stored; on a hit the stored value is reused.  The run returns the
BALANCED_RXNS column together with the list of texts on which f was
invoked. -/

/-- One balancing run over the rows (POSSIBLE_RXNS, RXN_TEXT), threading the
cache; returns the per-row balanced lists and the texts that caused a
computation. -/
def balanceRun (f : List String → String → List String) (g : String → String) :
    List (List String × String) → List (String × List String) →
    List (List String) × List String
  | [], _ => ([], [])
  | (poss, text) :: rest, cache =>
    match cache.lookup text with
    | some rxns =>
      let r := balanceRun f g rest cache
      (rxns :: r.1, r.2)
    | none =>
      let rxns := (f poss text).map g
      let r := balanceRun f g rest ((text, rxns) :: cache)
      (rxns :: r.1, text :: r.2)

/-- The BALANCED_RXNS column produced by the loop, starting from the empty
cache. -/
def balancedRxns (f : List String → String → List String) (g : String → String)
    (rows : List (List String × String)) : List (List String) :=
  (balanceRun f g rows []).1

/-- The reaction texts on which the balancing computation actually ran. -/
def balanceCalls (f : List String → String → List String) (g : String → String)
    (rows : List (List String × String)) : List String :=
  (balanceRun f g rows []).2

/-! ### map_group: the mapping stages (enzymemap.py lines 99-152)

An entry carries the per-row state that map_group mutates: the candidate and
balanced reaction lists and the mapping result fields, initialised to None
and empty lists.  The external helpers_map.map is abstracted as a function
returning (rxns, rules, rule_ids, individuals). -/

/-- Per-row state of map_group. -/
structure Entry where
  uncorrected_rxns : List String
  balanced_rxns : List String
  source : Option String
  step : Option String
  mapped_rxns : List String
  rules : List String
  rule_ids : List Int
  individuals : List String
deriving Repr, DecidableEq

/-- Result quadruple of helpers_map.map: mapped reactions, rules, rule ids,
individual component reactions. -/
abbrev MapResult := List String × List String × List Int × List String

/-- The single-step stage for one entry (lines 101-111): attempted when the
balanced list is non-empty; on a non-empty mapping result the entry's fields
are overwritten with source direct and step single. -/
def singleStep (mapS : List String → MapResult) (e : Entry) : Entry :=
  if 0 < e.balanced_rxns.length then
    let r := mapS e.balanced_rxns
    if 0 < r.1.length then
      { e with source := some (String.mk ['d', 'i', 'r', 'e', 'c', 't']),
               step := some (String.mk ['s', 'i', 'n', 'g', 'l', 'e']),
               mapped_rxns := r.1, rules := r.2.1,
               rule_ids := r.2.2.1, individuals := r.2.2.2 }
    else e
  else e

/-- rule_ids_in_ec (lines 115 and 134): the distinct rule ids collected over
all entries of the group. -/
def ruleIdsInEc (entries : List Entry) : List Int :=
  (entries.flatMap (fun e => e.rule_ids)).dedup

/-- db_rules.loc of a list of rule ids: the rows of the rule table selected
by those index labels.  A rule table row is (index, rule). -/
def locRules (db : List (Int × String)) (ids : List Int) : List (Int × String) :=
  ids.filterMap (fun i => db.find? (fun p => p.1 == i))

/-- The rule library used by the multi-step stage (lines 119-122): the full
library when no rule id has succeeded in the group yet, else the rows of the
already-successful rule ids. -/
def multiLibrary (db : List (Int × String)) (ids : List Int) : List (Int × String) :=
  if ids.length = 0 then db else locRules db ids

/-- Whether the multi-step stage attempts an entry (the guard on line 118). -/
def multiAttempted (e : Entry) : Bool :=
  decide (0 < e.balanced_rxns.length ∧ e.mapped_rxns.length = 0)

/-- The multi-step stage for one entry (lines 116-129): attempted only when
the balanced list is non-empty and the mapped list still empty, against the
library selected by multiLibrary. -/
def multiStep (mapM : List (Int × String) → List String → MapResult)
    (db : List (Int × String)) (ids : List Int) (e : Entry) : Entry :=
  if 0 < e.balanced_rxns.length ∧ e.mapped_rxns.length = 0 then
    let r := mapM (multiLibrary db ids) e.balanced_rxns
    if 0 < r.1.length then
      { e with source := some (String.mk ['d', 'i', 'r', 'e', 'c', 't']),
               step := some (String.mk ['m', 'u', 'l', 't', 'i']),
               mapped_rxns := r.1, rules := r.2.1,
               rule_ids := r.2.2.1, individuals := r.2.2.2 }
    else e
  else e

/-- Whether the suggestion stage attempts an entry (the guard on line 139). -/
def suggestAttempted (e : Entry) : Bool :=
  decide (e.mapped_rxns.length = 0)

/-- The suggestion stage for one entry (lines 137-152): only entries with an
empty mapped list are attempted; the external suggest_corrections may raise,
modelled as Except, and any exception is caught and replaced by the empty
list; a non-empty suggestion list is re-mapped and, on success, recorded with
source suggested and step single. -/
def suggestStage (sugg : List String → Except Unit (List String))
    (mapS : List String → MapResult) (e : Entry) : Entry :=
  if e.mapped_rxns.length = 0 then
    let rxns := match sugg e.uncorrected_rxns with
      | Except.ok r => r
      | Except.error _ => []
    if 0 < rxns.length then
      let r := mapS rxns
      if 0 < r.1.length then
        { e with source := some (String.mk ['s', 'u', 'g', 'g', 'e', 's', 't', 'e', 'd']),
                 step := some (String.mk ['s', 'i', 'n', 'g', 'l', 'e']),
                 mapped_rxns := r.1, rules := r.2.1,
                 rule_ids := r.2.2.1, individuals := r.2.2.2 }
      else e
    else e
  else e

/-! ### map_group: quality scoring (enzymemap.py lines 161-173)

l is the concatenation of all entries' rule_ids; for each rule equivalence
group the occurrence count is the sum over the group's members of their count
in l; groups with non-zero count give each member the score count divided by
the length of l. -/

/-- Occurrence count of one rule equivalence group in the flattened rule-id
list l. -/
def occCount (l : List Int) (g : List Int) : Nat :=
  (g.map (fun x => l.count x)).sum

/-- The sum of quality scores over the distinct rule equivalence groups with
non-zero occurrence count; each such group contributes its count divided by
the total number of rule-id occurrences. -/
def qualityScoresSum (groups : List (List Int)) (l : List Int) : ℚ :=
  ((groups.filter (fun g => occCount l g != 0)).map
    (fun g => (occCount l g : ℚ) / (l.length : ℚ))).sum

/-! ## Helper lemmas -/

/-- takeWhile and dropWhile on a block of satisfying elements followed by a
failing element. -/
theorem takeWhile_dropWhile_append {p : Char → Bool} :
    ∀ (l : List Char) (c : Char) (t : List Char), (∀ x ∈ l, p x = true) → p c = false →
      (l ++ c :: t).takeWhile p = l ∧ (l ++ c :: t).dropWhile p = c :: t := by
  intro l
  induction l with
  | nil =>
    intro c t _ hc
    simp [List.takeWhile_cons, List.dropWhile_cons, hc]
  | cons a as ih =>
    intro c t hall hc
    have ha : p a = true := hall a (by simp)
    have h' := ih c t (fun x hx => hall x (by simp [hx])) hc
    simp [List.takeWhile_cons, List.dropWhile_cons, ha, h'.1, h'.2]

theorem dedupByStrAux_nodup {α : Type} (toStr : α → String) :
    ∀ (l : List α) (seen : List String),
      ((dedupByStrAux toStr l seen).map toStr).Nodup ∧
      (∀ y ∈ dedupByStrAux toStr l seen, toStr y ∉ seen) := by
  intro l
  induction l with
  | nil => intro seen; simp [dedupByStrAux]
  | cons x xs ih =>
    intro seen
    by_cases hx : toStr x ∈ seen
    · simpa [dedupByStrAux, hx] using ih seen
    · have h' := ih (toStr x :: seen)
      refine ⟨?_, ?_⟩
      · simp only [dedupByStrAux, hx, if_false, List.map_cons, List.nodup_cons]
        exact ⟨fun hmem => by
          rcases List.mem_map.mp hmem with ⟨y, hy, hys⟩
          exact h'.2 y hy (by simp [hys]), h'.1⟩
      · intro y hy
        simp only [dedupByStrAux, hx, if_false, List.mem_cons] at hy
        rcases hy with rfl | hy
        · exact hx
        · intro hsn
          exact h'.2 y hy (by simp [hsn])

theorem sum_map_add_nat {α : Type} (f h : α → ℕ) :
    ∀ l : List α, (l.map (fun x => f x + h x)).sum = (l.map f).sum + (l.map h).sum := by
  intro l
  induction l with
  | nil => simp
  | cons a as ih => simp [ih]; omega

theorem occCount_nil (g : List Int) : occCount [] g = 0 := by
  simp [occCount]

theorem occCount_cons (a : Int) (l : List Int) (g : List Int) :
    occCount (a :: l) g = occCount l g + g.count a := by
  induction g with
  | nil => simp [occCount]
  | cons b gs ih =>
    simp only [occCount, List.map_cons, List.sum_cons, List.count_cons, beq_iff_eq] at *
    rcases eq_or_ne b a with rfl | hba
    · simp [ih]; omega
    · have hab : ¬(a = b) := fun h => hba h.symm
      simp [hba, hab, ih]; omega

theorem sum_count_one (a : Int) :
    ∀ (groups : List (List Int)), (∀ g ∈ groups, g.Nodup) →
      groups.Pairwise (fun g1 g2 => ∀ x, x ∈ g1 → x ∉ g2) →
      (∃ g ∈ groups, a ∈ g) →
      (groups.map (fun g => g.count a)).sum = 1 := by
  intro groups
  induction groups with
  | nil => intro _ _ hex; simp at hex
  | cons g gs ih =>
    intro hnd hdisj hex
    rcases List.pairwise_cons.mp hdisj with ⟨hg, hgs⟩
    by_cases ha : a ∈ g
    · have h1 : g.count a = 1 :=
        List.count_eq_one_of_mem (hnd g (by simp)) ha
      have h0 : (gs.map (fun g' => g'.count a)).sum = 0 := by
        apply List.sum_eq_zero
        intro x hx
        rcases List.mem_map.mp hx with ⟨g', hg', rfl⟩
        exact List.count_eq_zero_of_not_mem (hg g' hg' a ha)
      simp [h1, h0]
    · have h0 : g.count a = 0 := List.count_eq_zero_of_not_mem ha
      have hex' : ∃ g' ∈ gs, a ∈ g' := by
        rcases hex with ⟨g0, hg0, hag0⟩
        rcases List.mem_cons.mp hg0 with rfl | hg0'
        · exact absurd hag0 ha
        · exact ⟨g0, hg0', hag0⟩
      have := ih (fun g' hg' => hnd g' (by simp [hg'])) hgs hex'
      simp [h0, this]

theorem sum_occCount (groups : List (List Int)) :
    ∀ (l : List Int), (∀ g ∈ groups, g.Nodup) →
      groups.Pairwise (fun g1 g2 => ∀ x, x ∈ g1 → x ∉ g2) →
      (∀ x ∈ l, ∃ g ∈ groups, x ∈ g) →
      (groups.map (fun g => occCount l g)).sum = l.length := by
  intro l
  induction l with
  | nil =>
    intro _ _ _
    have : ∀ x ∈ groups.map (fun g => occCount [] g), x = 0 := by
      intro x hx
      rcases List.mem_map.mp hx with ⟨g, _, rfl⟩
      exact occCount_nil g
    simp [List.sum_eq_zero this]
  | cons a l' ih =>
    intro hnd hdisj hcov
    have hmap : groups.map (fun g => occCount (a :: l') g) =
        groups.map (fun g => occCount l' g + g.count a) := by
      apply List.map_congr_left
      intro g _
      exact occCount_cons a l' g
    rw [hmap, sum_map_add_nat]
    rw [ih hnd hdisj (fun x hx => hcov x (by simp [hx]))]
    rw [sum_count_one a groups hnd hdisj (hcov a (by simp))]
    simp [List.length_cons]

theorem sum_map_div_rat {α : Type} (c : ℚ) (f : α → ℚ) :
    ∀ l : List α, (l.map (fun x => f x / c)).sum = (l.map f).sum / c := by
  intro l
  induction l with
  | nil => simp
  | cons a as ih => simp [ih, add_div]

theorem sum_filter_occ (l : List Int) :
    ∀ groups : List (List Int),
      ((groups.filter (fun g => occCount l g != 0)).map (fun g => (occCount l g : ℚ))).sum =
        (groups.map (fun g => (occCount l g : ℚ))).sum := by
  intro groups
  induction groups with
  | nil => simp
  | cons g gs ih =>
    by_cases h : occCount l g = 0
    · simp [List.filter_cons, h, ih]
    · simp [List.filter_cons, h, ih]

/-! ## Claim C1: quality score normalization -/

/-- Claim C1 (counterexample to the claim as stated): for an enzyme group in
which no entry received any rule id (the flattened rule-id list is empty), the
sum of quality scores over the rule equivalence groups with non-zero
occurrence count is 0, not 1, even though the groups form a valid partition
of the rule-id universe. -/
theorem quality_scores_sum_empty_cex : qualityScoresSum [[1], [-1]] [] ≠ 1 := by
  decide

/-- Claim C1 (amended): whenever the enzyme group has at least one rule-id
occurrence, and the rule equivalence groups are duplicate-free, pairwise
disjoint and cover every rule id occurring in the group, the sum of quality
scores over the distinct rule equivalence groups with non-zero occurrence
count equals 1, each group scoring its occurrence count divided by the total
number of rule-id occurrences. -/
theorem quality_scores_sum_one (groups : List (List Int)) (l : List Int)
    (hnd : ∀ g ∈ groups, g.Nodup)
    (hdisj : groups.Pairwise (fun g1 g2 => ∀ x, x ∈ g1 → x ∉ g2))
    (hcov : ∀ x ∈ l, ∃ g ∈ groups, x ∈ g)
    (hne : l ≠ []) :
    qualityScoresSum groups l = 1 := by
  unfold qualityScoresSum
  rw [sum_map_div_rat, sum_filter_occ]
  have hcast : (groups.map (fun g => (occCount l g : ℚ))).sum =
      ((groups.map (fun g => occCount l g)).sum : ℚ) := by
    rw [Nat.cast_list_sum, List.map_map]
    rfl
  rw [hcast, sum_occCount groups l hnd hdisj hcov]
  have hlen : (l.length : ℚ) ≠ 0 := by
    simpa [List.length_eq_zero] using hne
  exact div_self hlen

/-- Claim C1 witness: the amended theorem applied to a concrete group with
rule-id occurrences [1, 1, 2] and partition [[1, 2], [-1]]. -/
theorem quality_scores_sum_one_witness :
    ((∀ g ∈ [[1, 2], [-1]], List.Nodup g) ∧
      List.Pairwise (fun g1 g2 => ∀ x, x ∈ g1 → x ∉ g2) [[1, 2], [-1]] ∧
      (∀ x ∈ ([1, 1, 2] : List Int), ∃ g ∈ [[1, 2], [-1]], x ∈ g) ∧
      ([1, 1, 2] : List Int) ≠ []) ∧
    qualityScoresSum [[1, 2], [-1]] [1, 1, 2] = 1 :=
  ⟨⟨by decide, by decide, by decide, by decide⟩,
    quality_scores_sum_one [[1, 2], [-1]] [1, 1, 2]
      (by decide) (by decide) (by decide) (by decide)⟩

/-! ## Claim C9: the process_entry discard condition -/

/-- Claim C9: process_entry discards a parsed reaction exactly when a question
mark occurs among its substrates or products or the name more occurs among
its substrates; the name more occurring only among the products does not
discard the reaction. -/
theorem process_entry_discard_iff (subs prods : List String) :
    (discardReaction subs prods = true ↔
      (String.mk ['?'] ∈ subs ∨ String.mk ['?'] ∈ prods ∨
        String.mk ['m', 'o', 'r', 'e'] ∈ subs)) ∧
    ((String.mk ['m', 'o', 'r', 'e'] ∈ prods ∧ String.mk ['m', 'o', 'r', 'e'] ∉ subs ∧
      String.mk ['?'] ∉ subs ∧ String.mk ['?'] ∉ prods) →
      discardReaction subs prods = false) := by
  constructor
  · simp [discardReaction, List.contains, List.elem_iff, or_assoc]
  · intro h
    simp [discardReaction, List.contains, List.elem_iff, h.2.1, h.2.2.1, h.2.2.2]

/-- Claim C9 witness: a reaction whose products contain more and whose
substrates do not is kept. -/
theorem process_entry_discard_iff_witness :
    (String.mk ['m', 'o', 'r', 'e'] ∈ [String.mk ['m', 'o', 'r', 'e']] ∧
      String.mk ['m', 'o', 'r', 'e'] ∉ [String.mk ['a']] ∧
      String.mk ['?'] ∉ [String.mk ['a']] ∧
      String.mk ['?'] ∉ [String.mk ['m', 'o', 'r', 'e']]) ∧
    discardReaction [String.mk ['a']] [String.mk ['m', 'o', 'r', 'e']] = false :=
  ⟨by decide,
    (process_entry_discard_iff [String.mk ['a']] [String.mk ['m', 'o', 'r', 'e']]).2
      (by decide)⟩

/-! ## Claim C10: parse_brenda output invariants -/

/-- Claim C10: the reaction table returned by parse_brenda contains no
duplicate rows (their string casts are pairwise distinct, hence so are the
rows) and no row whose EC number starts with the character 7. -/
theorem parse_brenda_no_dup_no_ec7 {α : Type} (toStr : α → String) (ec : α → String)
    (rows : List α) :
    ((parseBrendaFilter toStr ec rows).map toStr).Nodup ∧
    (parseBrendaFilter toStr ec rows).Nodup ∧
    (∀ r ∈ parseBrendaFilter toStr ec rows, pyStartsWith (String.mk ['7']) (ec r) = false) := by
  have hsub : (parseBrendaFilter toStr ec rows).Sublist (dedupByStr toStr rows) :=
    List.filter_sublist _
  have hnd : ((dedupByStr toStr rows).map toStr).Nodup :=
    (dedupByStrAux_nodup toStr rows []).1
  have h1 : ((parseBrendaFilter toStr ec rows).map toStr).Nodup :=
    (hsub.map toStr).nodup hnd
  refine ⟨h1, h1.of_map, ?_⟩
  intro r hr
  have := (List.mem_filter.mp hr).2
  simpa using this

/-- Claim C10 witness: a concrete row table with a duplicate row and a row
with an EC number in class 7; the surviving row passes the filter. -/
theorem parse_brenda_no_dup_no_ec7_witness :
    (String.mk ['1', '.', '1'] ∈
      parseBrendaFilter id id
        [String.mk ['1', '.', '1'], String.mk ['7', '.', '1'], String.mk ['1', '.', '1']]) ∧
    pyStartsWith (String.mk ['7']) (id (String.mk ['1', '.', '1'])) = false :=
  ⟨by decide,
    (parse_brenda_no_dup_no_ec7 id id
      [String.mk ['1', '.', '1'], String.mk ['7', '.', '1'], String.mk ['1', '.', '1']]).2.2
      (String.mk ['1', '.', '1']) (by decide)⟩

/-! ## Claim C7: reversibility tags -/

/-- Claim C7 (counterexample to the claim as stated): a reaction text whose
trailing brace marker holds the word foo receives the tag foo, which is none
of the three values r, ir, question mark. -/
theorem extract_reversibility_three_values_cex :
    extractReversibility (String.mk ['A', ' ', '=', ' ', 'B', ' ', '{', 'f', 'o', 'o', '}'])
        = String.mk ['f', 'o', 'o'] ∧
    ¬(extractReversibility (String.mk ['A', ' ', '=', ' ', 'B', ' ', '{', 'f', 'o', 'o', '}'])
          = String.mk ['r'] ∨
      extractReversibility (String.mk ['A', ' ', '=', ' ', 'B', ' ', '{', 'f', 'o', 'o', '}'])
          = String.mk ['i', 'r'] ∨
      extractReversibility (String.mk ['A', ' ', '=', ' ', 'B', ' ', '{', 'f', 'o', 'o', '}'])
          = String.mk ['?']) := by
  decide

/-- The trailing marker found on a text ending in an opening brace, a run of
word characters and a closing brace is exactly that bracketed run. -/
theorem findRevMarker_concat (xs w : List Char) (hw : ∀ c ∈ w, isWordChar c = true) :
    findRevMarker (xs ++ '{' :: (w ++ ['}'])) = some ('{' :: (w ++ ['}'])) := by
  have h1 : (xs ++ '{' :: (w ++ ['}'])).reverse
      = '}' :: (w.reverse ++ '{' :: xs.reverse) := by
    simp [List.reverse_append, List.reverse_cons, List.append_assoc]
  have hbrace : isWordChar '{' = false := by decide
  have hsp : ('}' == ' ') = false := by decide
  have hall : ∀ c ∈ w.reverse, isWordChar c = true := fun c hc =>
    hw c (List.mem_reverse.mp hc)
  have h2 := takeWhile_dropWhile_append w.reverse '{' xs.reverse hall hbrace
  unfold findRevMarker
  rw [h1]
  simp [List.takeWhile_cons, List.dropWhile_cons, hsp, h2.1, h2.2]

/-- pyStrip leaves a brace-delimited marker with no trailing spaces
unchanged. -/
theorem pyStrip_marker (w : List Char) :
    pyStrip ('{' :: (w ++ ['}'])) = '{' :: (w ++ ['}']) := by
  have hws1 : Char.isWhitespace '{' = false := by decide
  have hws2 : Char.isWhitespace '}' = false := by decide
  unfold pyStrip
  rw [List.dropWhile_cons]
  simp only [hws1, Bool.false_eq_true, if_false]
  have h1 : ('{' :: (w ++ ['}'])).reverse = '}' :: (w.reverse ++ ['{']) := by
    simp [List.reverse_cons, List.reverse_append]
  rw [h1, List.dropWhile_cons]
  simp only [hws2, Bool.false_eq_true, if_false]
  rw [← h1, List.reverse_reverse]

/-- Claim C7 (amended): extract_reaction yields the unknown tag whenever the
reaction text carries no trailing brace-delimited direction marker, and the
tag question mark also for an empty trailing marker; for a non-empty trailing
marker the tag is the word between the braces, whatever it is — so the tag
ranges over exactly the three values r, ir, question mark only insofar as the
input markers range over the forms open-close, r and ir. -/
theorem extract_reversibility_amended (xs w : List Char)
    (hw : ∀ c ∈ w, isWordChar c = true) (hne : w ≠ []) :
    (∀ s : String, findRevMarker s.data = none → extractReversibility s = String.mk ['?']) ∧
    extractReversibility (String.mk (xs ++ '{' :: (w ++ ['}']))) = String.mk w ∧
    extractReversibility (String.mk (xs ++ ['{', '}'])) = String.mk ['?'] := by
  refine ⟨?_, ?_, ?_⟩
  · intro s h
    simp [extractReversibility, h]
  · have hm := findRevMarker_concat xs w hw
    have hlen : 2 < ('{' :: (w ++ ['}'])).length := by
      simp only [List.length_cons, List.length_append, List.length_singleton]
      have := List.length_pos.mpr hne
      omega
    show extractReversibility ⟨xs ++ '{' :: (w ++ ['}'])⟩ = String.mk w
    unfold extractReversibility
    simp only [hm, hlen, if_true]
    rw [pyStrip_marker]
    simp [List.dropLast_concat]
  · have hm := findRevMarker_concat xs [] (by intro c hc; simp at hc)
    show extractReversibility ⟨xs ++ ['{', '}']⟩ = String.mk ['?']
    unfold extractReversibility
    simp only [List.nil_append] at hm
    simp [hm]

/-- Claim C7 witness: the amended theorem applied to the marker word ir. -/
theorem extract_reversibility_amended_witness :
    ((∀ c ∈ ['i', 'r'], isWordChar c = true) ∧ (['i', 'r'] : List Char) ≠ []) ∧
    (extractReversibility
        (String.mk (['A', ' ', '=', ' ', 'B', ' '] ++ '{' :: (['i', 'r'] ++ ['}'])))
      = String.mk ['i', 'r'] ∧
     extractReversibility (String.mk (['A', ' ', '=', ' ', 'B', ' '] ++ ['{', '}']))
      = String.mk ['?']) :=
  ⟨⟨by decide, by decide⟩,
    ⟨(extract_reversibility_amended ['A', ' ', '=', ' ', 'B', ' '] ['i', 'r']
        (by decide) (by decide)).2.1,
     (extract_reversibility_amended ['A', ' ', '=', ' ', 'B', ' '] ['i', 'r']
        (by decide) (by decide)).2.2⟩⟩

/-! ## Claim C8: coefficient expansion -/

/-- Claim C8 (counterexample to the claim as stated): the token 2 2 A begins
with the coefficient 2 followed by a space; the expansion emits two copies of
2 A, each of which still begins with an integer coefficient. -/
theorem expand_token_retains_coeff_cex :
    expandTokens [['2', ' ', '2', ' ', 'A']] = [['2', ' ', 'A'], ['2', ' ', 'A']] ∧
    hasLeadingCoeff ['2', ' ', 'A'] = true := by
  decide

/-- Claim C8 (amended): a token that begins with a digit run followed by a
space contributes exactly n copies of the remainder of the token, where n is
the value of the digit run; only that one leading coefficient is stripped, so
a copy may itself retain a further leading coefficient. -/
theorem expand_token_replicate (ds rest : List Char) (pre post : List (List Char))
    (hne : ds ≠ []) (hds : ∀ c ∈ ds, c.isDigit = true) :
    expandToken (ds ++ ' ' :: rest) = List.replicate (digitsToNat ds) rest ∧
    expandTokens (pre ++ (ds ++ ' ' :: rest) :: post) =
      expandTokens pre ++ (List.replicate (digitsToNat ds) rest ++ expandTokens post) := by
  have hsp : Char.isDigit ' ' = false := by decide
  have h1 : (ds ++ ' ' :: rest).takeWhile Char.isDigit = ds :=
    (takeWhile_dropWhile_append ds ' ' rest hds hsp).1
  have h2 : (ds ++ ' ' :: rest).drop ds.length = ' ' :: rest := List.drop_left ds (' ' :: rest)
  have h3 : ds.length ≠ 0 := by simpa [List.length_eq_zero] using hne
  have hmain : expandToken (ds ++ ' ' :: rest) = List.replicate (digitsToNat ds) rest := by
    unfold expandToken
    simp only [h1, h3, ne_eq, not_false_eq_true, if_true, h2]
  refine ⟨hmain, ?_⟩
  simp [expandTokens, List.flatMap_append, List.flatMap_cons, hmain]

/-- Claim C8 witness: the amended theorem applied to the token 2 oxidized fd,
which contributes the name oxidized fd twice. -/
theorem expand_token_replicate_witness :
    ((['2'] : List Char) ≠ [] ∧ (∀ c ∈ ['2'], Char.isDigit c = true)) ∧
    expandToken (['2'] ++ ' ' :: ['f', 'd'])
      = List.replicate (digitsToNat ['2']) ['f', 'd'] :=
  ⟨⟨by decide, by decide⟩,
    (expand_token_replicate ['2'] ['f', 'd'] [] [] (by decide) (by decide)).1⟩

/-! ## Claim C3: single-step success is final -/

/-- Claim C3: an entry whose single-step mapping succeeded, so that its mapped
reaction list is non-empty, is not attempted by the multi-step stage nor by
the suggestion stage: both guards are false and both stages leave the entry
unchanged. -/
theorem single_step_success_final (mapS : List String → MapResult)
    (mapM : List (Int × String) → List String → MapResult)
    (sugg : List String → Except Unit (List String))
    (mapS2 : List String → MapResult)
    (db : List (Int × String)) (ids : List Int) (e : Entry)
    (h : (singleStep mapS e).mapped_rxns ≠ []) :
    multiAttempted (singleStep mapS e) = false ∧
    multiStep mapM db ids (singleStep mapS e) = singleStep mapS e ∧
    suggestAttempted (singleStep mapS e) = false ∧
    suggestStage sugg mapS2 (singleStep mapS e) = singleStep mapS e := by
  have hlen : (singleStep mapS e).mapped_rxns.length ≠ 0 := by
    simpa [List.length_eq_zero] using h
  refine ⟨?_, ?_, ?_, ?_⟩
  · simp [multiAttempted, hlen]
  · unfold multiStep
    rw [if_neg]
    intro hc
    exact hlen hc.2
  · simp [suggestAttempted, hlen]
  · unfold suggestStage
    rw [if_neg hlen]

/-- Fixture: a mapper that always succeeds with one mapped reaction. -/
def wMapOk : List String → MapResult :=
  fun _ => ([String.mk ['m']], [String.mk ['r']], [1], [String.mk ['i']])

/-- Fixture: a multi-step mapper that always succeeds. -/
def wMapMulti : List (Int × String) → List String → MapResult :=
  fun _ _ => ([String.mk ['m']], [String.mk ['r']], [1], [String.mk ['i']])

/-- Fixture: a suggestion function that always raises. -/
def wSuggRaise : List String → Except Unit (List String) :=
  fun _ => Except.error ()

/-- Fixture: a fresh unmapped entry with one balanced reaction. -/
def wEntry : Entry :=
  { uncorrected_rxns := [String.mk ['u']], balanced_rxns := [String.mk ['b']],
    source := none, step := none, mapped_rxns := [], rules := [],
    rule_ids := [], individuals := [] }

/-- Claim C3 witness: a concrete entry mapped by the single-step stage is left
unchanged by the two later stages. -/
theorem single_step_success_final_witness :
    (singleStep wMapOk wEntry).mapped_rxns ≠ [] ∧
    (multiAttempted (singleStep wMapOk wEntry) = false ∧
      multiStep wMapMulti [] [] (singleStep wMapOk wEntry) = singleStep wMapOk wEntry) :=
  ⟨by decide,
    ⟨(single_step_success_final wMapOk wMapMulti wSuggRaise wMapOk [] [] wEntry
        (by decide)).1,
     (single_step_success_final wMapOk wMapMulti wSuggRaise wMapOk [] [] wEntry
        (by decide)).2.1⟩⟩

/-! ## Claim C5: the multi-step rule library -/

/-- Claim C5: when some rule ids have already succeeded in the enzyme group,
the multi-step stage maps against exactly the rule-table rows selected by
those ids — every rule in the library it uses carries one of the
already-successful ids; only when the group has no successful rule id yet is
the full table used.  The collected ids are precisely the ids occurring in
some entry of the group. -/
theorem multi_step_library_restriction (db : List (Int × String)) (entries : List Entry) :
    (ruleIdsInEc entries ≠ [] →
      multiLibrary db (ruleIdsInEc entries) = locRules db (ruleIdsInEc entries) ∧
      ∀ p ∈ multiLibrary db (ruleIdsInEc entries), p.1 ∈ ruleIdsInEc entries) ∧
    (ruleIdsInEc entries = [] → multiLibrary db (ruleIdsInEc entries) = db) ∧
    (∀ x ∈ ruleIdsInEc entries, ∃ e ∈ entries, x ∈ e.rule_ids) := by
  refine ⟨?_, ?_, ?_⟩
  · intro hne
    have hlen : (ruleIdsInEc entries).length ≠ 0 := by
      simpa [List.length_eq_zero] using hne
    have heq : multiLibrary db (ruleIdsInEc entries) = locRules db (ruleIdsInEc entries) := by
      unfold multiLibrary
      rw [if_neg hlen]
    refine ⟨heq, ?_⟩
    intro p hp
    rw [heq] at hp
    rcases List.mem_filterMap.mp hp with ⟨i, hi, hfind⟩
    have := List.find?_some hfind
    have hpi : p.1 = i := by simpa using this
    rw [hpi]
    exact hi
  · intro hnil
    unfold multiLibrary
    rw [hnil]
    simp
  · intro x hx
    rcases List.mem_flatMap.mp (List.mem_dedup.mp hx) with ⟨e, he, hxe⟩
    exact ⟨e, he, hxe⟩

/-- Fixture: an entry that succeeded with rule id 1. -/
def wEntryMapped : Entry :=
  { wEntry with mapped_rxns := [String.mk ['m']], rule_ids := [1] }

/-- Claim C5 witness: with a group containing one successful entry with rule
id 1, the multi-step library over a two-rule table is the single row of rule
id 1, and the full table is used for a group without successful ids. -/
theorem multi_step_library_restriction_witness :
    ruleIdsInEc [wEntryMapped] ≠ [] ∧
    (multiLibrary [(1, String.mk ['a']), (2, String.mk ['b'])] (ruleIdsInEc [wEntryMapped]) =
        locRules [(1, String.mk ['a']), (2, String.mk ['b'])] (ruleIdsInEc [wEntryMapped]) ∧
      ∀ p ∈ multiLibrary [(1, String.mk ['a']), (2, String.mk ['b'])]
          (ruleIdsInEc [wEntryMapped]),
        p.1 ∈ ruleIdsInEc [wEntryMapped]) :=
  ⟨by decide,
    (multi_step_library_restriction [(1, String.mk ['a']), (2, String.mk ['b'])]
      [wEntryMapped]).1 (by decide)⟩

/-! ## Claim C6: suggestion-fallback exceptions -/

/-- Claim C6: an exception raised inside the suggestion call for one entry is
caught and treated as an empty suggestion list; the stage leaves the entry
unchanged, so its mapped list stays empty and its source and step stay
unset, and no exception escapes (the stage is a total function). -/
theorem suggest_exception_leaves_unmapped
    (sugg : List String → Except Unit (List String))
    (mapS : List String → MapResult) (e : Entry) (u : Unit)
    (herr : sugg e.uncorrected_rxns = Except.error u) :
    suggestStage sugg mapS e = e ∧
    (suggestStage sugg mapS e).mapped_rxns = e.mapped_rxns ∧
    (suggestStage sugg mapS e).source = e.source ∧
    (suggestStage sugg mapS e).step = e.step := by
  have hmain : suggestStage sugg mapS e = e := by
    unfold suggestStage
    by_cases hm : e.mapped_rxns.length = 0
    · simp [hm, herr]
    · simp [hm]
  exact ⟨hmain, by rw [hmain], by rw [hmain], by rw [hmain]⟩

/-- Claim C6 witness: a raising suggestion function leaves the concrete
unmapped entry untouched. -/
theorem suggest_exception_leaves_unmapped_witness :
    wSuggRaise wEntry.uncorrected_rxns = Except.error () ∧
    suggestStage wSuggRaise wMapOk wEntry = wEntry :=
  ⟨rfl, (suggest_exception_leaves_unmapped wSuggRaise wMapOk wEntry () rfl).1⟩

/-! ## Claim C4: one candidate per combination -/

/-- The length of the product of a list of lists is the product of their
lengths. -/
theorem cartProd_length {α : Type} :
    ∀ ls : List (List α), (cartProd ls).length = (ls.map List.length).prod := by
  intro ls
  induction ls with
  | nil => simp [cartProd]
  | cons l ls ih =>
    simp only [cartProd, List.length_flatMap, List.map_map, List.map_cons, List.prod_cons]
    have hconst : (List.length ∘ fun a : α => List.map (fun t => a :: t) (cartProd ls)) =
        fun _ : α => (List.map List.length ls).prod := by
      funext a
      simp [ih]
    rw [hconst, List.map_const', List.sum_replicate, smul_eq_mul]

/-- Claim C4: make_initial produces exactly one candidate reaction string per
combination in the Cartesian product of the substrates' variant lists and the
products' variant lists — the candidate count is the product of all variant
list lengths — and if any participating name resolves to an empty variant
list the candidate list is empty. -/
theorem make_initial_cartesian (c2s : String → List String) (putHLast : String → String)
    (subs prods : List String) :
    (possibleRxns c2s putHLast subs prods).length =
      (subs.map (fun n => (c2s n).length)).prod *
        (prods.map (fun n => (c2s n).length)).prod ∧
    ((∃ n, n ∈ subs ++ prods ∧ c2s n = []) →
      possibleRxns c2s putHLast subs prods = []) := by
  have h1 : (possibleRxns c2s putHLast subs prods).length =
      (subs.map (fun n => (c2s n).length)).prod *
        (prods.map (fun n => (c2s n).length)).prod := by
    simp [possibleRxns, cartProd_length, List.map_map, Function.comp_def, mul_one]
  refine ⟨h1, ?_⟩
  rintro ⟨n, hn, hemp⟩
  have hzero : (subs.map (fun n => (c2s n).length)).prod *
      (prods.map (fun n => (c2s n).length)).prod = 0 := by
    rcases List.mem_append.mp hn with hns | hnp
    · have : (0 : ℕ) ∈ subs.map (fun n => (c2s n).length) :=
        List.mem_map.mpr ⟨n, hns, by simp [hemp]⟩
      simp [List.prod_eq_zero this]
    · have : (0 : ℕ) ∈ prods.map (fun n => (c2s n).length) :=
        List.mem_map.mpr ⟨n, hnp, by simp [hemp]⟩
      simp [List.prod_eq_zero this]
  exact List.length_eq_zero.mp (h1.trans hzero)

/-- Fixture: a name-resolution map with one unresolvable name. -/
def wC2s : String → List String :=
  fun n => if n = String.mk ['A'] then [] else [String.mk ['x']]

/-- Claim C4 witness: a reaction with the unresolvable substrate A has an
empty candidate list. -/
theorem make_initial_cartesian_witness :
    (∃ n, n ∈ [String.mk ['A']] ++ [String.mk ['C']] ∧ wC2s n = []) ∧
    possibleRxns wC2s id [String.mk ['A']] [String.mk ['C']] = [] :=
  ⟨⟨String.mk ['A'], by decide, by decide⟩,
    (make_initial_cartesian wC2s id [String.mk ['A']] [String.mk ['C']]).2
      ⟨String.mk ['A'], by decide, by decide⟩⟩

/-! ## Claim C2: the balancing cache -/

/-- Default row used for positional access to the balancing loop's input. -/
def dRow : List String × String := ([], String.mk [])

/-- Once a text is present in the cache, every later row with that text
receives the cached value. -/
theorem balanceRun_stable (f : List String → String → List String) (g : String → String) :
    ∀ (rows : List (List String × String)) (cache : List (String × List String))
      (t : String) (v : List String), cache.lookup t = some v →
      ∀ i : Nat, i < rows.length → (rows.getD i dRow).2 = t →
      (balanceRun f g rows cache).1.getD i [] = v := by
  intro rows
  induction rows with
  | nil =>
    intro cache t v _ i hi
    simp at hi
  | cons row rest ih =>
    intro cache t v hv i hi hts
    obtain ⟨poss, text⟩ := row
    cases h : cache.lookup text with
    | some w =>
      cases i with
      | zero =>
        have htt : text = t := by simpa [dRow] using hts
        have hwv : some w = some v := by rw [← h, htt, hv]
        simp [balanceRun, h]
        exact Option.some.inj hwv
      | succ i' =>
        have hts' : (rest.getD i' dRow).2 = t := by simpa using hts
        have hi' : i' < rest.length := by simpa using hi
        simp only [balanceRun, h]
        simpa using ih cache t v hv i' hi' hts'
    | none =>
      cases i with
      | zero =>
        have htt : text = t := by simpa [dRow] using hts
        rw [htt, hv] at h
        exact absurd h (by simp)
      | succ i' =>
        have hneq : (t == text) = false := by
          rcases hbe : t == text with _ | _
          · rfl
          · have : t = text := by simpa using hbe
            rw [← this, hv] at h
            exact absurd h (by simp)
        have hv' : ((text, (f poss text).map g) :: cache).lookup t = some v := by
          simp [List.lookup_cons, hneq, hv]
        have hts' : (rest.getD i' dRow).2 = t := by simpa using hts
        have hi' : i' < rest.length := by simpa using hi
        simp only [balanceRun, h]
        simpa using ih ((text, (f poss text).map g) :: cache) t v hv' i' hi' hts'

/-- The computation is invoked on pairwise distinct texts only, and only on
texts not already cached. -/
theorem balanceRun_calls_fresh (f : List String → String → List String) (g : String → String) :
    ∀ (rows : List (List String × String)) (cache : List (String × List String)),
      (balanceRun f g rows cache).2.Nodup ∧
      (∀ t ∈ (balanceRun f g rows cache).2, cache.lookup t = none) := by
  intro rows
  induction rows with
  | nil => intro cache; simp [balanceRun]
  | cons row rest ih =>
    intro cache
    obtain ⟨poss, text⟩ := row
    cases h : cache.lookup text with
    | some w => simpa [balanceRun, h] using ih cache
    | none =>
      have ih' := ih ((text, (f poss text).map g) :: cache)
      have hnotmem : text ∉ (balanceRun f g rest ((text, (f poss text).map g) :: cache)).2 := by
        intro hmem
        have := ih'.2 text hmem
        simp [List.lookup_cons] at this
      constructor
      · simp only [balanceRun, h]
        simpa [List.nodup_cons] using ⟨hnotmem, ih'.1⟩
      · intro t ht
        simp only [balanceRun, h] at ht
        simp only [List.mem_cons] at ht
        rcases ht with rfl | ht'
        · exact h
        · have := ih'.2 t ht'
          rcases hbe : t == text with _ | _
          · simpa [List.lookup_cons, hbe] using this
          · simp [List.lookup_cons, hbe] at this

/-- Rows with equal text receive equal balanced lists, from any starting
cache. -/
theorem balanceRun_congr (f : List String → String → List String) (g : String → String) :
    ∀ (rows : List (List String × String)) (cache : List (String × List String))
      (i j : Nat), i < rows.length → j < rows.length →
      (rows.getD i dRow).2 = (rows.getD j dRow).2 →
      (balanceRun f g rows cache).1.getD i [] = (balanceRun f g rows cache).1.getD j [] := by
  intro rows
  induction rows with
  | nil =>
    intro cache i j hi
    simp at hi
  | cons row rest ih =>
    intro cache i j hi hj hts
    obtain ⟨poss, text⟩ := row
    rcases i with _ | i' <;> rcases j with _ | j'
    · rfl
    · have hts' : (rest.getD j' dRow).2 = text := by simpa [dRow] using hts.symm
      have hj' : j' < rest.length := by simpa using hj
      cases h : cache.lookup text with
      | some w =>
        simp only [balanceRun, h]
        simpa using (balanceRun_stable f g rest cache text w h j' hj' hts').symm
      | none =>
        have hv' : ((text, (f poss text).map g) :: cache).lookup text
            = some ((f poss text).map g) := by
          simp [List.lookup_cons]
        simp only [balanceRun, h]
        simpa using
          (balanceRun_stable f g rest ((text, (f poss text).map g) :: cache) text
            ((f poss text).map g) hv' j' hj' hts').symm
    · have hts' : (rest.getD i' dRow).2 = text := by simpa [dRow] using hts
      have hi' : i' < rest.length := by simpa using hi
      cases h : cache.lookup text with
      | some w =>
        simp only [balanceRun, h]
        simpa using balanceRun_stable f g rest cache text w h i' hi' hts'
      | none =>
        have hv' : ((text, (f poss text).map g) :: cache).lookup text
            = some ((f poss text).map g) := by
          simp [List.lookup_cons]
        simp only [balanceRun, h]
        simpa using
          balanceRun_stable f g rest ((text, (f poss text).map g) :: cache) text
            ((f poss text).map g) hv' i' hi' hts'
    · have hts' : (rest.getD i' dRow).2 = (rest.getD j' dRow).2 := by simpa using hts
      have hi' : i' < rest.length := by simpa using hi
      have hj' : j' < rest.length := by simpa using hj
      cases h : cache.lookup text with
      | some w =>
        simp only [balanceRun, h]
        simpa using ih cache i' j' hi' hj' hts'
      | none =>
        simp only [balanceRun, h]
        simpa using ih ((text, (f poss text).map g) :: cache) i' j' hi' hj' hts'

/-- Claim C2: two rows of make_initial with identical reaction text receive
identical balanced-reaction lists, and the balancing computation runs at most
once per distinct text (the list of texts it runs on has no duplicates). -/
theorem make_initial_cache_correct (f : List String → String → List String)
    (g : String → String) (rows : List (List String × String)) (i j : Nat)
    (hi : i < rows.length) (hj : j < rows.length)
    (ht : (rows.getD i dRow).2 = (rows.getD j dRow).2) :
    (balancedRxns f g rows).getD i [] = (balancedRxns f g rows).getD j [] ∧
    (balanceCalls f g rows).Nodup :=
  ⟨balanceRun_congr f g rows [] i j hi hj ht,
    (balanceRun_calls_fresh f g rows []).1⟩

/-- Fixture: two rows sharing one reaction text, with different candidate
lists. -/
def wRows : List (List String × String) :=
  [([String.mk ['p']], String.mk ['t']), ([String.mk ['q']], String.mk ['t'])]

/-- Fixture: a balancer that returns its candidate list unchanged. -/
def wBal : List String → String → List String := fun poss _ => poss

/-- Claim C2 witness: on the concrete two-row table with equal texts, the two
balanced lists coincide and the balancer ran on no duplicate text. -/
theorem make_initial_cache_correct_witness :
    (0 < wRows.length ∧ 1 < wRows.length ∧ (wRows.getD 0 dRow).2 = (wRows.getD 1 dRow).2) ∧
    ((balancedRxns wBal id wRows).getD 0 [] = (balancedRxns wBal id wRows).getD 1 [] ∧
      (balanceCalls wBal id wRows).Nodup) :=
  ⟨⟨by decide, by decide, by decide⟩,
    make_initial_cache_correct wBal id wRows 0 1 (by decide) (by decide) (by decide)⟩

end EnzymeMap
